import Mathlib

/-!
Verification of the reconciliation engine of obsidian-github-publisher.

The development shallowly embeds the core of `src/main.ts`:
the content addressor `gitBlobSha1`, the local-file gathering
(`getAllFilesInFolder` and the selection loop of `publishToGitHub`), the
remote-map construction and diffing of `publishToGitHub`, and the whole
`publishToGitHub` control flow against an abstract GitHub API oracle.
Machine words are modelled as `Nat` with explicit reduction modulo 2^32,
strings as Lean `String`, and JavaScript `Map`/`Set` as association lists
with first-match lookup.
-/

set_option maxRecDepth 100000

/-! ## Content addressor: SHA-1 over byte lists

The source computes `window.crypto.subtle.digest("SHA-1", blob)`.  Here
SHA-1 itself is defined from the FIPS 180 specification over `List Nat`
bytes (each < 256), with 32-bit words represented as `Nat` reduced mod
2^32; the standard test vectors are proved below to validate it. -/

/-- Reduce a natural number to a 32-bit word. -/
def w32 (n : Nat) : Nat := n % 4294967296

/-- Rotate a 32-bit word left by `b` bits. -/
def rotl (n b : Nat) : Nat :=
  w32 (Nat.lor (w32 (Nat.shiftLeft n b)) (Nat.shiftRight (w32 n) (32 - b)))

/-- The SHA-1 round function: choice, parity, majority, parity. -/
def sha1F (i b c d : Nat) : Nat :=
  if i < 20 then Nat.lor (Nat.land b c) (Nat.land (Nat.xor b 4294967295) d)
  else if i < 40 then Nat.xor (Nat.xor b c) d
  else if i < 60 then Nat.lor (Nat.lor (Nat.land b c) (Nat.land b d)) (Nat.land c d)
  else Nat.xor (Nat.xor b c) d

/-- The SHA-1 round constants. -/
def sha1K (i : Nat) : Nat :=
  if i < 20 then 1518500249
  else if i < 40 then 1859775393
  else if i < 60 then 2400959708
  else 3395469782

/-- Big-endian bytes of `n`, `k` bytes wide. -/
def bytesBE : Nat → Nat → List Nat
  | 0, _ => []
  | k + 1, n => (n / (256 ^ k)) % 256 :: bytesBE k n

/-- Pack big-endian bytes into 32-bit words (groups of four). -/
def bytesToWords : List Nat → List Nat
  | b0 :: b1 :: b2 :: b3 :: rest =>
      (b0 * 16777216 + b1 * 65536 + b2 * 256 + b3) :: bytesToWords rest
  | _ => []

/-- Message-schedule extension, keeping the schedule reversed (most recent
word first): each new word is `rotl1 (w[i-3] xor w[i-8] xor w[i-14] xor w[i-16])`. -/
def sha1ExtendRev : Nat → List Nat → List Nat
  | 0, rws => rws
  | n + 1, rws =>
      sha1ExtendRev n
        (rotl (Nat.xor (Nat.xor (rws.getD 2 0) (rws.getD 7 0))
                (Nat.xor (rws.getD 13 0) (rws.getD 15 0))) 1 :: rws)

/-- The 80-word message schedule of a 64-byte block. -/
def sha1Schedule (block : List Nat) : List Nat :=
  (sha1ExtendRev 64 (bytesToWords block).reverse).reverse

/-- One SHA-1 compression round at index `i` with schedule word `w`. -/
def sha1Round (st : Nat × Nat × Nat × Nat × Nat) (iw : Nat × Nat) :
    Nat × Nat × Nat × Nat × Nat :=
  match st, iw with
  | (a, b, c, d, e), (i, w) =>
      (w32 (rotl a 5 + sha1F i b c d + e + sha1K i + w), a, rotl b 30, c, d)

/-- Compress one 64-byte block into the running hash state. -/
def sha1Compress (h : Nat × Nat × Nat × Nat × Nat) (block : List Nat) :
    Nat × Nat × Nat × Nat × Nat :=
  match h with
  | (h0, h1, h2, h3, h4) =>
      match (sha1Schedule block).enum.foldl sha1Round (h0, h1, h2, h3, h4) with
      | (a, b, c, d, e) =>
          (w32 (h0 + a), w32 (h1 + b), w32 (h2 + c), w32 (h3 + d), w32 (h4 + e))

/-- Merkle–Damgård padding: append `0x80`, zero bytes up to 56 mod 64, then
the 64-bit big-endian bit length. -/
def sha1Pad (msg : List Nat) : List Nat :=
  msg ++ [128] ++ List.replicate ((119 - msg.length % 64) % 64) 0
      ++ bytesBE 8 (msg.length * 8)

/-- Fold the compression function over consecutive 64-byte blocks; the first
argument is fuel, always called with at least one unit per block. -/
def sha1Chunks : Nat → (Nat × Nat × Nat × Nat × Nat) → List Nat →
    Nat × Nat × Nat × Nat × Nat
  | 0, h, _ => h
  | _ + 1, h, [] => h
  | fuel + 1, h, msg => sha1Chunks fuel (sha1Compress h (msg.take 64)) (msg.drop 64)

/-- SHA-1 digest (20 bytes) of a byte list. -/
def sha1 (msg : List Nat) : List Nat :=
  let p := sha1Pad msg
  match sha1Chunks p.length (1732584193, 4023233417, 2562383102, 271733878, 3285377520) p with
  | (h0, h1, h2, h3, h4) =>
      bytesBE 4 h0 ++ bytesBE 4 h1 ++ bytesBE 4 h2 ++ bytesBE 4 h3 ++ bytesBE 4 h4

/-- Lowercase hexadecimal digit, as produced by JavaScript `toString(16)`. -/
def hexNibble (n : Nat) : Char :=
  if n < 10 then Char.ofNat (48 + n) else Char.ofNat (87 + n)

/-- Two lowercase hex digits of a byte: models
`b.toString(16).padStart(2, "0")` for `b < 256`. -/
def byteHex (b : Nat) : String := ⟨[hexNibble (b / 16), hexNibble (b % 16)]⟩

/-- Hex rendering of a byte list: models `Array.from(bytes).map(hex).join("")`. -/
def bytesToHex (bs : List Nat) : String := String.join (bs.map byteHex)

/-- UTF-8 bytes of a single Unicode scalar value. -/
def utf8Char (c : Nat) : List Nat :=
  if c < 128 then [c]
  else if c < 2048 then [192 + c / 64, 128 + c % 64]
  else if c < 65536 then [224 + c / 4096, 128 + (c / 64) % 64, 128 + c % 64]
  else [240 + c / 262144, 128 + (c / 4096) % 64, 128 + (c / 64) % 64, 128 + c % 64]

/-- UTF-8 encoding of a string: models `new TextEncoder().encode(s)`. -/
def utf8Encode (s : String) : List Nat :=
  (s.data.map (fun c => utf8Char c.toNat)).flatten

/-- Embedding of `gitBlobSha1` from `src/main.ts`: UTF-8 encode the content,
build the header `"blob " + byteLength + "\0"`, concatenate header bytes and
content bytes, SHA-1 the result and render as lowercase hex. -/
def gitBlobSha1 (content : String) : String :=
  let contentBytes := utf8Encode content
  let header := "blob " ++ toString contentBytes.length ++ "\x00"
  let headerBytes := utf8Encode header
  bytesToHex (sha1 (headerBytes ++ contentBytes))

/-- FIPS 180 test vector: SHA-1 of the empty message. -/
example : bytesToHex (sha1 []) = "da39a3ee5e6b4b0d3255bfef95601890afd80709" := by decide

/-- FIPS 180 test vector: SHA-1 of "abc". -/
example : bytesToHex (sha1 (utf8Encode "abc")) =
    "a9993e364706816aba3e25717850c26c9cd0d89d" := by decide

/-- FIPS 180 test vector: SHA-1 of the 448-bit two-block message. -/
example : bytesToHex (sha1 (utf8Encode "abcdbcdecdefdefgefghfghighijhijkijkljklmklmnlmnomnopnopq")) =
    "84983e441c3bd26ebaae4aa1f95129e5e54670f1" := by decide

/-! ## Settings and URL parsing -/

/-- Embedding of the `GitHubPublisherSettings` interface of `src/main.ts`. -/
structure GitHubPublisherSettings where
  githubToken : String
  repoUrl : String
  repoFolder : String
  repoBranch : String
  selectedPaths : List String
  syncInterval : Int
  lastSyncDate : Option String
deriving DecidableEq, Repr

/-- Lowercase an ASCII letter; models the case-insensitive `i` flag of the
repo-URL regular expression. -/
def lowerChar (c : Char) : Char :=
  if 'A' ≤ c ∧ c ≤ 'Z' then Char.ofNat (c.toNat + 32) else c

/-- Boolean test that `pat` is an initial segment of `l`. -/
def hasPre : List Char → List Char → Bool
  | [], _ => true
  | _ :: _, [] => false
  | a :: as, b :: bs => a == b && hasPre as bs

/-- Lazy match of the trailing group `(.+?)(\.git)?$` of the repo-URL
regular expression: the shortest non-empty prefix of the input whose
remainder is empty or a case variant of `".git"`. -/
def matchNameRev : List Char → List Char → Option String
  | _, [] => none
  | acc, c :: rest =>
      if rest.isEmpty || rest.map lowerChar == ['.', 'g', 'i', 't'] then
        some ⟨(c :: acc).reverse⟩
      else matchNameRev (c :: acc) rest

/-- Lazy match of `(.+?)\/(.+?)(\.git)?$`: split at the earliest slash with a
non-empty owner part such that the rest matches the repo-name group. -/
def matchOwnerRepo : List Char → List Char → Option (String × String)
  | acc, '/' :: rest =>
      if acc.isEmpty then matchOwnerRepo ['/'] rest
      else
        match matchNameRev [] rest with
        | some repo => some (⟨acc.reverse⟩, repo)
        | none => matchOwnerRepo ('/' :: acc) rest
  | acc, c :: rest => matchOwnerRepo (c :: acc) rest
  | _, [] => none

/-- Try to match `github\.com[:/](.+?)\/(.+?)(\.git)?$` at the head of `l`. -/
def tryMatchAt (l : List Char) : Option (String × String) :=
  if hasPre ['g', 'i', 't', 'h', 'u', 'b', '.', 'c', 'o', 'm'] (l.map lowerChar) then
    match l.drop 10 with
    | sep :: rest => if sep == ':' || sep == '/' then matchOwnerRepo [] rest else none
    | [] => none
  else none

/-- Leftmost match: try the pattern at every start position in order. -/
def parseRepoUrlAux : List Char → Option (String × String)
  | [] => none
  | c :: rest =>
      match tryMatchAt (c :: rest) with
      | some r => some r
      | none => parseRepoUrlAux rest

/-- Embedding of `parseRepoUrl` from `src/main.ts`: extract owner and repo
name by matching `/github\.com[:/](.+?)\/(.+?)(\.git)?$/i`; the source throws
`"URL de repo GitHub invalide"` on failure, modelled by `none`. -/
def parseRepoUrl (repoUrl : String) : Option (String × String) :=
  parseRepoUrlAux repoUrl.data

example : parseRepoUrl "https://github.com/cyprieng/obsidian-github-publisher" =
    some ("cyprieng", "obsidian-github-publisher") := by decide

example : parseRepoUrl "git@github.com:owner/repo.git" = some ("owner", "repo") := by decide

example : parseRepoUrl "https://example.com/owner/repo" = none := by decide

/-- Embedding of `this.settings.repoFolder.replace(/^\/|\/$/g, "")` from
`publishToGitHub`: the regular expression removes one leading slash and one
trailing slash. -/
def dropLeadSlash : List Char → List Char
  | '/' :: rest => rest
  | l => l

/-- Strip one leading and one trailing slash from a string. -/
def stripSlashes (s : String) : String :=
  ⟨(dropLeadSlash (dropLeadSlash s.data).reverse).reverse⟩

example : stripSlashes "/docs/" = "docs" := by decide

example : stripSlashes "//" = "" := by decide

/-! ## The vault: local files and folders

Obsidian's `TFile`/`TFolder` tree is modelled as a mutual inductive (a file
has a path and a content, a folder has a path and children), and the vault's
`getAbstractFileByPath` as first-match lookup in an association list of
paths to entries. -/

mutual
inductive AbstractFile where
  | file (path : String) (content : String)
  | folder (path : String) (children : FileChildren)
inductive FileChildren where
  | nil
  | cons (head : AbstractFile) (tail : FileChildren)
end

/-- A vault: the associations `getAbstractFileByPath` can return. -/
abbrev Vault := List (String × AbstractFile)

/-- Embedding of `getAllFilesInFolder` from `src/main.ts`, processing the
`children` of a folder: files are collected in order, subfolders are
recursively expanded in place. Returns `(path, content)` pairs, pairing each
`TFile` with the result of `vault.read` on it. -/
def getAllFilesInFolder : FileChildren → List (String × String)
  | .nil => []
  | .cons (.file p c) rest => (p, c) :: getAllFilesInFolder rest
  | .cons (.folder _ ch) rest => getAllFilesInFolder ch ++ getAllFilesInFolder rest

/-- A gathered local file, as accumulated by `publishToGitHub`:
the vault path, the repository path, and the file content. -/
structure LocalFile where
  vaultPath : String
  repoPath : String
  content : String
deriving DecidableEq, Repr

/-- Embedding of `repoFolder ? `RF/PATH` : PATH` from `publishToGitHub`
(the empty string is falsy in JavaScript). -/
def mkRepoPath (repoFolder path : String) : String :=
  if repoFolder = "" then path else repoFolder ++ "/" ++ path

/-- Embedding of the local-file gathering loop of `publishToGitHub`: for each
selected path, a file contributes itself, a folder contributes its
recursively expanded files, and an unresolvable path contributes nothing. -/
def gatherLocalFiles (v : Vault) (repoFolder : String) : List String → List LocalFile
  | [] => []
  | p :: rest =>
      (match List.lookup p v with
       | some (.file fp c) => [⟨fp, mkRepoPath repoFolder fp, c⟩]
       | some (.folder _ ch) =>
          (getAllFilesInFolder ch).map (fun fc => ⟨fc.1, mkRepoPath repoFolder fc.1, fc.2⟩)
       | none => []) ++ gatherLocalFiles v repoFolder rest

/-! ## Remote tree listing and the remote-file map -/

/-- One entry of the recursive tree listing returned by the get-tree call
(`baseTree.data.tree`): a path, an object type, and an optional object id. -/
structure RawEntry where
  path : String
  type : String
  sha : Option String
deriving DecidableEq, Repr

/-- Embedding of the remote-map filter of `publishToGitHub`: the entry is a
blob, its path is truthy, and its path equals `repoFolder` or starts with
`repoFolder + "/"`. -/
def remoteFilter (repoFolder : String) (obj : RawEntry) : Bool :=
  obj.type == "blob" && obj.path != "" &&
    (obj.path == repoFolder || hasPre (repoFolder ++ "/").data obj.path.data)

/-- JavaScript `Map.set` on an association list: overwrite the value at an
existing key in place, otherwise append the binding. -/
def mapSet (m : List (String × String)) (k v : String) : List (String × String) :=
  if m.any (fun e => e.1 == k) then m.map (fun e => if e.1 == k then (k, v) else e)
  else m ++ [(k, v)]

/-- Embedding of the remote-map construction loop of `publishToGitHub`:
filtered entries are inserted as `path → obj.sha || ""`. -/
def buildRemoteMap (entries : List RawEntry) (repoFolder : String) :
    List (String × String) :=
  entries.foldl
    (fun m obj =>
      if remoteFilter repoFolder obj then mapSet m obj.path (obj.sha.getD "") else m)
    []

/-! ## Tree mutations -/

/-- One element of the `tree` array passed to the create-tree call. -/
structure TreeItem where
  path : String
  mode : String
  type : String
  content : Option String
  sha : Option String
deriving DecidableEq, Repr

/-- The tree entry pushed for an added or updated file: mode `100644`,
type `blob`, inline content. -/
def mkUpsert (path content : String) : TreeItem :=
  ⟨path, "100644", "blob", some content, none⟩

/-- The tree entry pushed for a deletion: mode `100644`, type `blob`, empty
`sha` (the source comments: to delete a file, set sha to an empty string). -/
def mkDelete (path : String) : TreeItem :=
  ⟨path, "100644", "blob", none, some ""⟩

/-- Embedding of the add-or-update loop of `publishToGitHub`: a file is
pushed exactly when its local blob hash differs from the remote map's entry
at its repo path (`undefined` counts as different). -/
def upsertItems (localFiles : List LocalFile) (remoteFiles : List (String × String)) :
    List TreeItem :=
  localFiles.filterMap (fun f =>
    if List.lookup f.repoPath remoteFiles = some (gitBlobSha1 f.content) then none
    else some (mkUpsert f.repoPath f.content))

/-- Embedding of the deletion loop of `publishToGitHub`: every key of the
remote map that is not a local repo path is pushed as a deletion. -/
def deleteItems (remoteFiles : List (String × String)) (localRepoPaths : List String) :
    List TreeItem :=
  remoteFiles.filterMap (fun e =>
    if e.1 ∈ localRepoPaths then none else some (mkDelete e.1))

/-- The full mutation list of `publishToGitHub`: upserts first (in local-file
order), then deletions (in remote-map order). -/
def computeMutations (localFiles : List LocalFile) (remoteFiles : List (String × String)) :
    List TreeItem :=
  upsertItems localFiles remoteFiles ++
    deleteItems remoteFiles (localFiles.map LocalFile.repoPath)

/-! ## The GitHub API oracle and `publishToGitHub` -/

/-- A record of one REST call issued by `publishToGitHub`.  The source also
sends a fixed author and committer identity (`"Obsidian GitHub Publisher"`,
`"obsidian-bot@cyprien.io"`) with create-commit; no claim mentions them, so
they are not recorded. -/
inductive ApiCall where
  | getRef (ref : String)
  | getCommit (commitSha : String)
  | getTree (treeSha : String) (recursive : Bool)
  | createTree (baseTreeSha : String) (tree : List TreeItem)
  | createCommit (message treeSha parentSha : String)
  | updateRef (ref sha : String)
deriving DecidableEq, Repr

/-- Whether a call writes to the remote repository. -/
def ApiCall.isWrite : ApiCall → Bool
  | .createTree _ _ => true
  | .createCommit _ _ _ => true
  | .updateRef _ _ => true
  | _ => false

/-- The remote GitHub API as an oracle: each operation takes the owner, the
repo, and its payload, and either returns a result or fails with an error
message (a thrown exception in the source). -/
structure Api where
  getRef : String → String → String → Except String String
  getCommit : String → String → String → Except String String
  getTree : String → String → String → Bool → Except String (List RawEntry)
  createTree : String → String → String → List TreeItem → Except String String
  createCommit : String → String → String → String → String → Except String String
  updateRef : String → String → String → String → Except String Unit

/-- The commit message used by `publishToGitHub` (the bytes as they appear
in the source file). -/
def commitMessage : String := "Publish Obsidian â†’ GitHub"

/-- How the body of `publishToGitHub` (the `try` block) ends: the
invalid-settings early return, a completed run that recorded the sync date,
or a thrown error (from URL parsing or a remote call). -/
inductive BodyExit where
  | invalidSettings
  | published
  | threw (msg : String)
deriving DecidableEq, Repr

/-- Embedding of the `try` block of `publishToGitHub`: validate settings,
parse the URL, gather local files, read ref, commit and recursive tree,
diff, and either stop (empty mutation list) or create tree and commit and
update the ref.  Returns the list of API calls issued, in order, together
with the exit. -/
def publishBody (s : GitHubPublisherSettings) (v : Vault) (api : Api) :
    List ApiCall × BodyExit :=
  if s.githubToken = "" ∨ s.repoUrl = "" ∨ s.repoBranch = "" then
    ([], .invalidSettings)
  else
    match parseRepoUrl s.repoUrl with
    | none => ([], .threw "URL de repo GitHub invalide")
    | some (owner, repo) =>
      let repoFolder := stripSlashes s.repoFolder
      let localFiles := gatherLocalFiles v repoFolder s.selectedPaths
      let refName := "heads/" ++ s.repoBranch
      match api.getRef owner repo refName with
      | .error e => ([.getRef refName], .threw e)
      | .ok latestCommitSha =>
        match api.getCommit owner repo latestCommitSha with
        | .error e => ([.getRef refName, .getCommit latestCommitSha], .threw e)
        | .ok baseTreeSha =>
          match api.getTree owner repo baseTreeSha true with
          | .error e =>
              ([.getRef refName, .getCommit latestCommitSha, .getTree baseTreeSha true],
                .threw e)
          | .ok baseTree =>
            let remoteFiles := buildRemoteMap baseTree repoFolder
            let tree := computeMutations localFiles remoteFiles
            let reads : List ApiCall :=
              [.getRef refName, .getCommit latestCommitSha, .getTree baseTreeSha true]
            if tree.length = 0 then (reads, .published)
            else
              match api.createTree owner repo baseTreeSha tree with
              | .error e => (reads ++ [.createTree baseTreeSha tree], .threw e)
              | .ok newTreeSha =>
                match api.createCommit owner repo commitMessage newTreeSha latestCommitSha with
                | .error e =>
                    (reads ++ [.createTree baseTreeSha tree,
                      .createCommit commitMessage newTreeSha latestCommitSha], .threw e)
                | .ok commitSha =>
                  match api.updateRef owner repo refName commitSha with
                  | .error e =>
                      (reads ++ [.createTree baseTreeSha tree,
                        .createCommit commitMessage newTreeSha latestCommitSha,
                        .updateRef refName commitSha], .threw e)
                  | .ok _ =>
                      (reads ++ [.createTree baseTreeSha tree,
                        .createCommit commitMessage newTreeSha latestCommitSha,
                        .updateRef refName commitSha], .published)

/-- The caller-visible outcome of one `publishToGitHub` invocation: the API
calls issued, the notice shown (if any), the exception escaping to the
caller (if any), and whether `updateLastSyncDate` ran. -/
structure PublishResult where
  calls : List ApiCall
  notice : Option String
  thrown : Option String
  lastSyncUpdated : Bool
deriving DecidableEq, Repr

/-- Embedding of `publishToGitHub` from `src/main.ts`.  The whole body runs
inside `try { ... } catch (e) { new Notice("GitHub Publisher: error during
publish : " + e.message); }`: a thrown error is converted to a notice and
the promise still resolves, so `thrown` is `none` on every path.
`updateLastSyncDate` runs exactly on the `published` exits (the empty-diff
short circuit and the completed ref update). -/
def publishToGitHub (s : GitHubPublisherSettings) (v : Vault) (api : Api) :
    PublishResult :=
  match publishBody s v api with
  | (calls, .invalidSettings) =>
      ⟨calls, some "GitHub Publisher: invalid settings", none, false⟩
  | (calls, .published) => ⟨calls, none, none, true⟩
  | (calls, .threw msg) =>
      ⟨calls, some ("GitHub Publisher: error during publish : " ++ msg), none, false⟩

/-! ## Remote semantics of the mutation list

Modelled from the spec: the remote create-tree, create-commit and update-ref
semantics (spec section 6, "Remote protocol") — an entry with inline content
replaces the blob at its path with a blob whose id is the git blob hash of
that content, and an entry with `sha = ""` (or null) deletes the path.  The
resulting recursive listing of the new branch tip, restricted to blobs, is
what the next get-tree call would report. -/
def applyTreeItem (listing : List RawEntry) (item : TreeItem) : List RawEntry :=
  match item.content with
  | some c => listing.filter (fun o => o.path != item.path) ++
      [⟨item.path, "blob", some (gitBlobSha1 c)⟩]
  | none => listing.filter (fun o => o.path != item.path)

/-- Modelled from the spec: applying a whole mutation list to the base
recursive listing, in order. -/
def applyTree (listing : List RawEntry) (items : List TreeItem) : List RawEntry :=
  items.foldl applyTreeItem listing

/-! ## Shared concrete fixtures -/

/-- An API oracle that answers every call successfully, with a fixed remote
tree listing. -/
def okApi (listing : List RawEntry) : Api where
  getRef := fun _ _ _ => .ok "c0"
  getCommit := fun _ _ _ => .ok "t0"
  getTree := fun _ _ _ _ => .ok listing
  createTree := fun _ _ _ _ => .ok "t1"
  createCommit := fun _ _ _ _ _ => .ok "c1"
  updateRef := fun _ _ _ _ => .ok ()

example :
    (publishToGitHub ⟨"tok", "https://github.com/u/r", "docs", "main", ["a.md"], 60, none⟩
        [("a.md", .file "a.md" "x")] (okApi [])).lastSyncUpdated = true := by decide

/-! ## C2: correctness of `gitBlobSha1` -/

/-- C2: `gitBlobSha1` hashes the UTF-8 bytes of `"blob " + byte length +
NUL` followed by the UTF-8 bytes of the content, rendered as lowercase hex:
its value on `""` and on `"hello"` is the well-known git blob digest of
`"blob 0\0"` resp. `"blob 5\0hello"`, and on every content it equals the
SHA-1 of the header bytes concatenated with the content bytes. -/
theorem gitBlobSha1_spec :
    gitBlobSha1 "" = "e69de29bb2d1d6434b8b29ae775ad8c2e48c5391" ∧
    gitBlobSha1 "hello" = "b6fc4c620b67d95f953a5c1c1230aaab5db5a1b0" ∧
    gitBlobSha1 "" = bytesToHex (sha1 (utf8Encode "blob 0\x00")) ∧
    gitBlobSha1 "hello" = bytesToHex (sha1 (utf8Encode "blob 5\x00hello")) ∧
    ∀ content : String,
      gitBlobSha1 content =
        bytesToHex (sha1
          (utf8Encode ("blob " ++ toString (utf8Encode content).length ++ "\x00") ++
            utf8Encode content)) :=
  ⟨by decide, by decide, by decide, by decide, fun _ => rfl⟩

/-! ## C10: target-folder normalization -/

/-- The result of `publishBody` depends on the settings only through the
token, the URL, the branch, the normalized folder, and the gathered files. -/
theorem publishBody_congr (s t : GitHubPublisherSettings) (v : Vault) (api : Api)
    (h1 : s.githubToken = t.githubToken) (h2 : s.repoUrl = t.repoUrl)
    (h3 : s.repoBranch = t.repoBranch)
    (h4 : stripSlashes s.repoFolder = stripSlashes t.repoFolder)
    (h5 : gatherLocalFiles v (stripSlashes s.repoFolder) s.selectedPaths =
      gatherLocalFiles v (stripSlashes t.repoFolder) t.selectedPaths) :
    publishBody s v api = publishBody t v api := by
  obtain ⟨a1, a2, a3, a4, a5, a6, a7⟩ := s
  obtain ⟨b1, b2, b3, b4, b5, b6, b7⟩ := t
  simp only at h1 h2 h3 h4 h5
  subst h1; subst h2; subst h3
  rw [h4] at h5
  simp only [publishBody, h4, h5]

/-- C10: the configured target folder is normalized by stripping exactly one
leading and one trailing slash before any use, so `"docs"`, `"/docs"`,
`"docs/"` and `"/docs/"` yield the same repo paths, the same remote-map
filter, and the same publish behaviour, while `"//docs"` normalizes to
`"/docs"`, not `"docs"`. -/
theorem repoFolder_normalized :
    stripSlashes "docs" = "docs" ∧ stripSlashes "/docs" = "docs" ∧
    stripSlashes "docs/" = "docs" ∧ stripSlashes "/docs/" = "docs" ∧
    stripSlashes "//docs" = "/docs" ∧ stripSlashes "//docs" ≠ stripSlashes "docs" ∧
    (∀ p : String, mkRepoPath (stripSlashes "/docs/") p = mkRepoPath "docs" p) ∧
    (∀ l : List RawEntry,
      buildRemoteMap l (stripSlashes "/docs/") = buildRemoteMap l "docs") ∧
    (∀ (s : GitHubPublisherSettings) (v : Vault) (api : Api),
      publishToGitHub { s with repoFolder := "/docs/" } v api =
        publishToGitHub { s with repoFolder := "docs" } v api) := by
  refine ⟨by decide, by decide, by decide, by decide, by decide, by decide,
    fun p => rfl, fun l => rfl, fun s v api => ?_⟩
  have h := publishBody_congr { s with repoFolder := "/docs/" }
    { s with repoFolder := "docs" } v api rfl rfl rfl rfl rfl
  simp only [publishToGitHub, h]

/-! ## C6: the remote-map filter with an empty target folder -/

/-- Every element of `mapSet m k v` is an element of `m` or the new binding. -/
theorem mem_of_mem_mapSet {m : List (String × String)} {k v : String}
    {x : String × String} (hx : x ∈ mapSet m k v) : x ∈ m ∨ x = (k, v) := by
  unfold mapSet at hx
  split at hx
  · rcases List.mem_map.mp hx with ⟨e, he, heq⟩
    by_cases hk : (e.1 == k) = true
    · rw [if_pos hk] at heq; exact .inr heq.symm
    · rw [if_neg hk] at heq; exact .inl (heq ▸ he)
  · rcases List.mem_append.mp hx with h | h
    · exact .inl h
    · exact .inr (List.mem_singleton.mp h)

/-- Every binding produced by the remote-map fold comes from the accumulator
or from a listed entry that passes the filter. -/
theorem buildRemoteMap_go_mem (rf : String) (entries : List RawEntry) :
    ∀ (acc : List (String × String)) (x : String × String),
      x ∈ entries.foldl
        (fun m obj =>
          if remoteFilter rf obj then mapSet m obj.path (obj.sha.getD "") else m) acc →
      x ∈ acc ∨ ∃ o ∈ entries, remoteFilter rf o ∧ x.1 = o.path := by
  induction entries with
  | nil => exact fun acc x hx => .inl hx
  | cons o rest ih =>
      intro acc x hx
      simp only [List.foldl_cons] at hx
      by_cases ho : remoteFilter rf o
      · rw [if_pos ho] at hx
        rcases ih _ x hx with h | ⟨o', ho', hf, hp⟩
        · rcases mem_of_mem_mapSet h with h' | h'
          · exact .inl h'
          · exact .inr ⟨o, List.mem_cons_self o rest, ho, by rw [h']⟩
        · exact .inr ⟨o', List.mem_cons_of_mem o ho', hf, hp⟩
      · rw [if_neg ho] at hx
        rcases ih _ x hx with h | ⟨o', ho', hf, hp⟩
        · exact .inl h
        · exact .inr ⟨o', List.mem_cons_of_mem o ho', hf, hp⟩

/-- C6: with an empty normalized target folder, the remote-map filter does
NOT select every blob: it requires the path to start with `"/"` (since
`path === "" || path.startsWith("" + "/")` reduces to that), so a listing of
ordinary git paths produces an empty remote map, and any selected binding
must have a slash-led path. -/
theorem emptyFolder_selects_no_blob :
    buildRemoteMap [⟨"a.md", "blob", some "h1"⟩, ⟨"docs/b.md", "blob", some "h2"⟩] "" = [] ∧
    (∀ (l : List RawEntry) (p s : String),
      (p, s) ∈ buildRemoteMap l "" → p.data.head? = some '/') := by
  refine ⟨by decide, fun l p s hm => ?_⟩
  rcases buildRemoteMap_go_mem "" l [] (p, s) hm with h | ⟨o, _, hf, hp⟩
  · simp at h
  · simp only [remoteFilter, Bool.and_eq_true, Bool.or_eq_true] at hf
    obtain ⟨⟨-, hne⟩, hor⟩ := hf
    rcases hor with heq | hpre
    · rw [beq_iff_eq] at heq
      rw [heq] at hne
      simp at hne
    · have hd : (("" ++ "/" : String)).data = ['/'] := rfl
      rw [hd] at hpre
      simp only at hp
      rw [hp]
      cases hpath : o.path.data with
      | nil => rw [hpath] at hpre; exact absurd hpre (by decide)
      | cons c cs =>
          rw [hpath] at hpre
          simp only [hasPre, Bool.and_eq_true, beq_iff_eq] at hpre
          rw [List.head?, hpre.1]

theorem emptyFolder_selects_no_blob_witness :
    (("/x", "h") ∈ buildRemoteMap [⟨"/x", "blob", some "h"⟩] "") ∧
    ("/x" : String).data.head? = some '/' :=
  ⟨by decide,
    emptyFolder_selects_no_blob.2 [⟨"/x", "blob", some "h"⟩] "/x" "h" (by decide)⟩

/-! ## C9: duplicate selections are not deduplicated -/

/-- Gathering distributes over concatenation of the selected paths. -/
theorem gather_append (v : Vault) (rf : String) (l₁ l₂ : List String) :
    gatherLocalFiles v rf (l₁ ++ l₂) =
      gatherLocalFiles v rf l₁ ++ gatherLocalFiles v rf l₂ := by
  induction l₁ with
  | nil => rfl
  | cons p rest ih => simp [gatherLocalFiles, ih]

/-- A vault in which the file `d/f.md` is reachable both directly and via
the selected folder `d`. -/
def dupVault : Vault :=
  [("d", .folder "d" (.cons (.file "d/f.md" "x") .nil)),
   ("d/f.md", .file "d/f.md" "x")]

/-- C9 fails on the code: selecting both the folder `d` and the file
`d/f.md` inside it produces two upsert entries with the same path
`docs/d/f.md` in the mutation list — the gathered entries are not
deduplicated by repo path. -/
theorem noDedup_counterexample :
    computeMutations (gatherLocalFiles dupVault "docs" ["d", "d/f.md"]) [] =
      [mkUpsert "docs/d/f.md" "x", mkUpsert "docs/d/f.md" "x"] ∧
    (computeMutations (gatherLocalFiles dupVault "docs" ["d", "d/f.md"]) []).countP
        (fun it => it.path == "docs/d/f.md") = 2 :=
  ⟨by decide, by decide⟩

/-- C9 amended: the gathered local entries are NOT deduplicated by repo
path; whenever a file is selected both directly and through a selected
ancestor folder, and its content hash differs from the remote map's entry at
its repo path, the mutation list contains at least two upsert entries with
that same path. -/
theorem noDedup_duplicate_upserts (v : Vault) (repoFolder : String)
    (pre mid post : List String) (d dp fp c : String) (ch : FileChildren)
    (remote : List (String × String))
    (hd : List.lookup d v = some (.folder dp ch))
    (hin : (fp, c) ∈ getAllFilesInFolder ch)
    (hf : List.lookup fp v = some (.file fp c))
    (hchanged : List.lookup (mkRepoPath repoFolder fp) remote ≠ some (gitBlobSha1 c)) :
    2 ≤ (computeMutations (gatherLocalFiles v repoFolder (pre ++ d :: (mid ++ fp :: post)))
          remote).countP (fun it => it.path == mkRepoPath repoFolder fp) := by
  have hsplit : gatherLocalFiles v repoFolder (pre ++ d :: (mid ++ fp :: post)) =
      gatherLocalFiles v repoFolder pre ++
      ((getAllFilesInFolder ch).map
          (fun fc => ⟨fc.1, mkRepoPath repoFolder fc.1, fc.2⟩) ++
        (gatherLocalFiles v repoFolder mid ++
          ([⟨fp, mkRepoPath repoFolder fp, c⟩] ++ gatherLocalFiles v repoFolder post))) := by
    rw [gather_append]
    congr 1
    show gatherLocalFiles v repoFolder (d :: (mid ++ fp :: post)) = _
    simp only [gatherLocalFiles, hd]
    congr 1
    rw [gather_append]
    congr 1
    simp only [gatherLocalFiles, hf]
  rw [hsplit]
  unfold computeMutations
  rw [List.countP_append]
  simp only [upsertItems, List.filterMap_append, List.countP_append]
  have hB : 0 < List.countP (fun it => it.path == mkRepoPath repoFolder fp)
      (List.filterMap
        (fun f : LocalFile =>
          if List.lookup f.repoPath remote = some (gitBlobSha1 f.content) then none
          else some (mkUpsert f.repoPath f.content))
        ((getAllFilesInFolder ch).map
          (fun fc => ⟨fc.1, mkRepoPath repoFolder fc.1, fc.2⟩))) := by
    rw [List.countP_pos_iff]
    refine ⟨mkUpsert (mkRepoPath repoFolder fp) c, ?_, by simp [mkUpsert]⟩
    rw [List.mem_filterMap]
    refine ⟨⟨fp, mkRepoPath repoFolder fp, c⟩, ?_, ?_⟩
    · exact List.mem_map.mpr ⟨(fp, c), hin, rfl⟩
    · simp only [if_neg hchanged]
  have hD : List.countP (fun it => it.path == mkRepoPath repoFolder fp)
      (List.filterMap
        (fun f : LocalFile =>
          if List.lookup f.repoPath remote = some (gitBlobSha1 f.content) then none
          else some (mkUpsert f.repoPath f.content))
        [⟨fp, mkRepoPath repoFolder fp, c⟩]) = 1 := by
    simp [List.filterMap, if_neg hchanged, List.countP_cons, mkUpsert]
  omega

theorem noDedup_duplicate_upserts_witness :
    List.lookup "d" dupVault =
      some (.folder "d" (.cons (.file "d/f.md" "x") .nil)) ∧
    ("d/f.md", "x") ∈ getAllFilesInFolder (.cons (.file "d/f.md" "x") .nil) ∧
    List.lookup "d/f.md" dupVault = some (.file "d/f.md" "x") ∧
    List.lookup (mkRepoPath "docs" "d/f.md") ([] : List (String × String)) ≠
      some (gitBlobSha1 "x") ∧
    2 ≤ (computeMutations (gatherLocalFiles dupVault "docs" ([] ++ "d" :: ([] ++ "d/f.md" :: [])))
          ([] : List (String × String))).countP
        (fun it => it.path == mkRepoPath "docs" "d/f.md") :=
  ⟨rfl, by decide, rfl, by decide,
    noDedup_duplicate_upserts dupVault "docs" [] [] [] "d" "d" "d/f.md" "x"
      (.cons (.file "d/f.md" "x") .nil) [] rfl (by decide) rfl (by decide)⟩

/-! ## Membership characterizations of the mutation list -/

/-- Characterization of membership in the upsert part of the mutation
list. -/
theorem mem_upsertItems {locals : List LocalFile} {remote : List (String × String)}
    {p c : String} :
    mkUpsert p c ∈ upsertItems locals remote ↔
      (∃ g ∈ locals, g.repoPath = p ∧ g.content = c) ∧
        List.lookup p remote ≠ some (gitBlobSha1 c) := by
  unfold upsertItems
  rw [List.mem_filterMap]
  constructor
  · rintro ⟨g, hg, hsome⟩
    by_cases hcond : List.lookup g.repoPath remote = some (gitBlobSha1 g.content)
    · rw [if_pos hcond] at hsome; exact absurd hsome (by simp)
    · rw [if_neg hcond] at hsome
      have h1 : g.repoPath = p ∧ g.content = c := by
        simpa [mkUpsert, TreeItem.mk.injEq] using hsome
      refine ⟨⟨g, hg, h1.1, h1.2⟩, ?_⟩
      rw [← h1.1, ← h1.2]; exact hcond
  · rintro ⟨⟨g, hg, hp, hc⟩, hcond⟩
    refine ⟨g, hg, ?_⟩
    rw [hp, hc, if_neg hcond]

/-- Characterization of membership in the deletion part of the mutation
list. -/
theorem mem_deleteItems {remote : List (String × String)} {paths : List String}
    {p : String} :
    mkDelete p ∈ deleteItems remote paths ↔
      p ∈ remote.map Prod.fst ∧ ¬ p ∈ paths := by
  unfold deleteItems
  rw [List.mem_filterMap]
  constructor
  · rintro ⟨e, he, hsome⟩
    by_cases hc : e.1 ∈ paths
    · rw [if_pos hc] at hsome; exact absurd hsome (by simp)
    · rw [if_neg hc] at hsome
      have h1 : e.1 = p := by simpa [mkDelete, TreeItem.mk.injEq] using hsome
      exact ⟨List.mem_map.mpr ⟨e, he, h1⟩, h1 ▸ hc⟩
  · rintro ⟨hp, hnp⟩
    rcases List.mem_map.mp hp with ⟨e, he, he1⟩
    refine ⟨e, he, ?_⟩
    rw [he1, if_neg hnp]

/-- Every element of the upsert part carries inline content. -/
theorem mem_upsertItems_shape {locals : List LocalFile}
    {remote : List (String × String)} {it : TreeItem}
    (h : it ∈ upsertItems locals remote) : ∃ q c, it = mkUpsert q c := by
  unfold upsertItems at h
  rcases List.mem_filterMap.mp h with ⟨g, _, hsome⟩
  by_cases hcond : List.lookup g.repoPath remote = some (gitBlobSha1 g.content)
  · rw [if_pos hcond] at hsome; exact absurd hsome (by simp)
  · rw [if_neg hcond] at hsome
    exact ⟨g.repoPath, g.content, (Option.some.injEq _ _ ▸ hsome).symm⟩

/-- Every element of the deletion part is a deletion entry. -/
theorem mem_deleteItems_shape {remote : List (String × String)}
    {paths : List String} {it : TreeItem}
    (h : it ∈ deleteItems remote paths) : ∃ q, it = mkDelete q := by
  unfold deleteItems at h
  rcases List.mem_filterMap.mp h with ⟨e, _, hsome⟩
  by_cases hc : e.1 ∈ paths
  · rw [if_pos hc] at hsome; exact absurd hsome (by simp)
  · rw [if_neg hc] at hsome
    exact ⟨e.1, (Option.some.injEq _ _ ▸ hsome).symm⟩

/-- An upsert entry never equals a deletion entry. -/
theorem mkUpsert_ne_mkDelete (p c q : String) : mkUpsert p c ≠ mkDelete q := by
  simp [mkUpsert, mkDelete]

/-! ## C3: upsert exactly for changed or new files -/

/-- C3: for a gathered local entry, the mutation list contains its upsert
entry iff the remote map has no binding at its repo path or a different
hash; and if exactly one entry changed while every remote path is covered by
the local selection, the mutation list is exactly that one upsert. -/
theorem upsert_iff_changed (locals : List LocalFile) (remote : List (String × String))
    (f : LocalFile) (hf : f ∈ locals) :
    (mkUpsert f.repoPath f.content ∈ computeMutations locals remote ↔
      List.lookup f.repoPath remote ≠ some (gitBlobSha1 f.content)) ∧
    (∀ (l₁ l₂ : List LocalFile) (f₀ : LocalFile),
      locals = l₁ ++ f₀ :: l₂ →
      (∀ g ∈ l₁ ++ l₂, List.lookup g.repoPath remote = some (gitBlobSha1 g.content)) →
      List.lookup f₀.repoPath remote ≠ some (gitBlobSha1 f₀.content) →
      (∀ p ∈ remote.map Prod.fst, p ∈ locals.map LocalFile.repoPath) →
      computeMutations locals remote = [mkUpsert f₀.repoPath f₀.content]) := by
  constructor
  · unfold computeMutations
    rw [List.mem_append]
    constructor
    · rintro (h | h)
      · exact (mem_upsertItems.mp h).2
      · rcases mem_deleteItems_shape h with ⟨q, hq⟩
        exact absurd hq (mkUpsert_ne_mkDelete _ _ _)
    · intro hcond
      exact .inl (mem_upsertItems.mpr ⟨⟨f, hf, rfl, rfl⟩, hcond⟩)
  · intro l₁ l₂ f₀ hsplit hunch hch hcover
    unfold computeMutations
    have hdel : deleteItems remote (locals.map LocalFile.repoPath) = [] := by
      unfold deleteItems
      rw [List.filterMap_eq_nil_iff]
      intro e he
      rw [if_pos (hcover e.1 (List.mem_map.mpr ⟨e, he, rfl⟩))]
    have hup : upsertItems locals remote = [mkUpsert f₀.repoPath f₀.content] := by
      rw [hsplit]
      unfold upsertItems
      rw [List.filterMap_append]
      have h₁ : List.filterMap
          (fun f : LocalFile =>
            if List.lookup f.repoPath remote = some (gitBlobSha1 f.content) then none
            else some (mkUpsert f.repoPath f.content)) l₁ = [] := by
        rw [List.filterMap_eq_nil_iff]
        intro g hg
        rw [if_pos (hunch g (List.mem_append_left _ hg))]
      have h₂ : List.filterMap
          (fun f : LocalFile =>
            if List.lookup f.repoPath remote = some (gitBlobSha1 f.content) then none
            else some (mkUpsert f.repoPath f.content)) l₂ = [] := by
        rw [List.filterMap_eq_nil_iff]
        intro g hg
        rw [if_pos (hunch g (List.mem_append_right _ hg))]
      rw [h₁, List.filterMap_cons, if_neg hch, h₂]
      rfl
    rw [hup, hdel, List.append_nil]

theorem upsert_iff_changed_witness :
    (⟨"a.md", "docs/a.md", "new"⟩ : LocalFile) ∈
      [(⟨"a.md", "docs/a.md", "new"⟩ : LocalFile)] ∧
    (mkUpsert "docs/a.md" "new" ∈
        computeMutations [⟨"a.md", "docs/a.md", "new"⟩]
          [("docs/a.md", gitBlobSha1 "old")] ↔
      List.lookup "docs/a.md" [("docs/a.md", gitBlobSha1 "old")] ≠
        some (gitBlobSha1 "new")) :=
  ⟨List.mem_singleton.mpr rfl,
    (upsert_iff_changed [⟨"a.md", "docs/a.md", "new"⟩]
      [("docs/a.md", gitBlobSha1 "old")] ⟨"a.md", "docs/a.md", "new"⟩
      (List.mem_singleton.mpr rfl)).1⟩

/-! ## C4: deletion exactly for uncovered remote paths -/

/-- C4: the mutation list contains a deletion entry for a path iff the path
is a key of the remote map and not a gathered repo path; in the two-file
deletion scenario the mutation list is exactly one deletion and no
upsert. -/
theorem delete_iff_uncovered :
    (∀ (locals : List LocalFile) (remote : List (String × String)) (p : String),
      mkDelete p ∈ computeMutations locals remote ↔
        p ∈ remote.map Prod.fst ∧ ¬ p ∈ locals.map LocalFile.repoPath) ∧
    (∀ (vp c s : String),
      computeMutations [⟨vp, "docs/a.md", c⟩]
          [("docs/a.md", gitBlobSha1 c), ("docs/old.md", s)] =
        [mkDelete "docs/old.md"]) := by
  constructor
  · intro locals remote p
    unfold computeMutations
    rw [List.mem_append]
    constructor
    · rintro (h | h)
      · rcases mem_upsertItems_shape h with ⟨q, c, hq⟩
        exact absurd hq.symm (mkUpsert_ne_mkDelete _ _ _)
      · exact mem_deleteItems.mp h
    · intro h
      exact .inr (mem_deleteItems.mpr h)
  · intro vp c s
    unfold computeMutations upsertItems deleteItems
    simp [List.lookup, List.filterMap_cons, mkDelete]

/-! ## C7: failures never update the timestamp and never propagate -/

/-- Settings fixture used by concrete publish runs. -/
def pubSettings : GitHubPublisherSettings :=
  ⟨"tok", "https://github.com/u/r", "docs", "main", ["a.md"], 60, none⟩

/-- Vault fixture with a single file. -/
def pubVault : Vault := [("a.md", .file "a.md" "x")]

/-- An API oracle whose final update-ref call fails with a conflict. -/
def failUpdateApi : Api where
  getRef := fun _ _ _ => .ok "c0"
  getCommit := fun _ _ _ => .ok "t0"
  getTree := fun _ _ _ _ => .ok []
  createTree := fun _ _ _ _ => .ok "t1"
  createCommit := fun _ _ _ _ _ => .ok "c1"
  updateRef := fun _ _ _ _ => .error "conflict"

/-- C7 fails on the code as stated: when update-ref fails, the timestamp is
indeed not updated, but the error does NOT propagate to the caller — the
catch block converts it into a notice and `publishToGitHub` returns
normally. -/
theorem error_swallowed_counterexample :
    (publishToGitHub pubSettings pubVault failUpdateApi).thrown = none ∧
    (publishToGitHub pubSettings pubVault failUpdateApi).notice =
      some "GitHub Publisher: error during publish : conflict" ∧
    (publishToGitHub pubSettings pubVault failUpdateApi).lastSyncUpdated = false :=
  ⟨by decide, by decide, by decide⟩

/-- C7 amended: no exception ever escapes `publishToGitHub`; the sync date
is updated exactly on the no-notice (successful) runs; and when every call
up to update-ref succeeds but update-ref fails, the timestamp stays
un-updated and the error surfaces only as a notice. -/
theorem update_ref_failure_aborts :
    (∀ (s : GitHubPublisherSettings) (v : Vault) (api : Api),
      (publishToGitHub s v api).thrown = none) ∧
    (∀ (s : GitHubPublisherSettings) (v : Vault) (api : Api),
      (publishToGitHub s v api).lastSyncUpdated = true ↔
        (publishToGitHub s v api).notice = none) ∧
    (∀ (s : GitHubPublisherSettings) (v : Vault) (api : Api)
        (owner repo c₁ t₁ t₂ c₂ e : String) (L : List RawEntry),
      s.githubToken ≠ "" → s.repoUrl ≠ "" → s.repoBranch ≠ "" →
      parseRepoUrl s.repoUrl = some (owner, repo) →
      api.getRef owner repo ("heads/" ++ s.repoBranch) = .ok c₁ →
      api.getCommit owner repo c₁ = .ok t₁ →
      api.getTree owner repo t₁ true = .ok L →
      (computeMutations (gatherLocalFiles v (stripSlashes s.repoFolder) s.selectedPaths)
          (buildRemoteMap L (stripSlashes s.repoFolder))).length ≠ 0 →
      api.createTree owner repo t₁
          (computeMutations (gatherLocalFiles v (stripSlashes s.repoFolder) s.selectedPaths)
            (buildRemoteMap L (stripSlashes s.repoFolder))) = .ok t₂ →
      api.createCommit owner repo commitMessage t₂ c₁ = .ok c₂ →
      api.updateRef owner repo ("heads/" ++ s.repoBranch) c₂ = .error e →
      (publishToGitHub s v api).lastSyncUpdated = false ∧
        (publishToGitHub s v api).notice =
          some ("GitHub Publisher: error during publish : " ++ e) ∧
        (publishToGitHub s v api).thrown = none) := by
  refine ⟨fun s v api => ?_, fun s v api => ?_, ?_⟩
  · rcases h : publishBody s v api with ⟨calls, exit⟩
    cases exit <;> simp [publishToGitHub, h]
  · rcases h : publishBody s v api with ⟨calls, exit⟩
    cases exit <;> simp [publishToGitHub, h]
  · intro s v api owner repo c₁ t₁ t₂ c₂ e L ht1 ht2 ht3 hparse h1 h2 h3 hne h4 h5 h6
    have hbody : publishBody s v api =
        ([.getRef ("heads/" ++ s.repoBranch), .getCommit c₁, .getTree t₁ true] ++
          [.createTree t₁
              (computeMutations
                (gatherLocalFiles v (stripSlashes s.repoFolder) s.selectedPaths)
                (buildRemoteMap L (stripSlashes s.repoFolder))),
            .createCommit commitMessage t₂ c₁,
            .updateRef ("heads/" ++ s.repoBranch) c₂], .threw e) := by
      simp only [publishBody, ht1, ht2, ht3, hparse, h1, h2, h3, hne, h4, h5, h6,
        if_false, if_neg, or_self, or_false, false_or, if_neg hne]
    simp [publishToGitHub, hbody]

/-! ## C8: unresolvable selected paths are silently skipped -/

/-- Settings fixture whose selection contains a path absent from the
vault. -/
def ghostSettings : GitHubPublisherSettings :=
  { pubSettings with selectedPaths := ["ghost.md", "a.md"] }

/-- C8 fails on the code: with the selected path `ghost.md` absent from the
vault, the publish does not abort — it completes successfully (no notice, no
exception, timestamp updated), gathering only the resolvable entries. -/
theorem missing_path_skipped_counterexample :
    (publishToGitHub ghostSettings pubVault (okApi [])).notice = none ∧
    (publishToGitHub ghostSettings pubVault (okApi [])).thrown = none ∧
    (publishToGitHub ghostSettings pubVault (okApi [])).lastSyncUpdated = true ∧
    gatherLocalFiles pubVault "docs" ["ghost.md", "a.md"] =
      [⟨"a.md", "docs/a.md", "x"⟩] :=
  ⟨by decide, by decide, by decide, by decide⟩

/-- C8 amended: a selected path that resolves to neither a file nor a folder
contributes nothing: the whole publish behaves exactly as if that path had
been removed from the selection (so its remote counterpart, if any, is
deleted rather than preserved). -/
theorem missing_path_skipped (s : GitHubPublisherSettings) (v : Vault) (api : Api)
    (p : String) (hp : List.lookup p v = none) :
    publishToGitHub s v api =
      publishToGitHub { s with selectedPaths := s.selectedPaths.filter (fun q => q != p) }
        v api := by
  have hg : ∀ sel : List String,
      gatherLocalFiles v (stripSlashes s.repoFolder) (sel.filter (fun q => q != p)) =
        gatherLocalFiles v (stripSlashes s.repoFolder) sel := by
    intro sel
    induction sel with
    | nil => rfl
    | cons q rest ih =>
        by_cases hq : q = p
        · subst hq
          simp only [List.filter_cons, bne_self_eq_false, Bool.false_eq_true, if_false,
            gatherLocalFiles, hp, List.nil_append]
          exact ih
        · simp only [List.filter_cons, if_pos (bne_iff_ne.mpr hq), gatherLocalFiles, ih]
  have h := publishBody_congr s
    { s with selectedPaths := s.selectedPaths.filter (fun q => q != p) } v api
    rfl rfl rfl rfl (hg s.selectedPaths).symm
  simp only [publishToGitHub, h]

theorem missing_path_skipped_witness :
    List.lookup "ghost.md" pubVault = none ∧
    publishToGitHub ghostSettings pubVault (okApi []) =
      publishToGitHub
        { ghostSettings with
            selectedPaths := ghostSettings.selectedPaths.filter (fun q => q != "ghost.md") }
        pubVault (okApi []) :=
  ⟨rfl, missing_path_skipped ghostSettings pubVault (okApi []) "ghost.md" rfl⟩

theorem update_ref_failure_aborts_witness :
    failUpdateApi.updateRef "u" "r" ("heads/" ++ pubSettings.repoBranch) "c1" =
      .error "conflict" ∧
    ((publishToGitHub pubSettings pubVault failUpdateApi).lastSyncUpdated = false ∧
      (publishToGitHub pubSettings pubVault failUpdateApi).notice =
        some ("GitHub Publisher: error during publish : " ++ "conflict") ∧
      (publishToGitHub pubSettings pubVault failUpdateApi).thrown = none) :=
  ⟨rfl,
    update_ref_failure_aborts.2.2 pubSettings pubVault failUpdateApi "u" "r" "c0" "t0"
      "t1" "c1" "conflict" [] (by decide) (by decide) (by decide) (by decide) rfl rfl rfl
      (by decide) rfl rfl rfl⟩

/-! ## Mirror machinery: association-list lookups -/

/-- Lookup misses exactly the keys outside the list. -/
theorem lookupNone_iff (m : List (String × String)) (k : String) :
    List.lookup k m = none ↔ ¬ k ∈ m.map Prod.fst := by
  induction m with
  | nil => simp
  | cons e rest ih =>
      obtain ⟨k', v'⟩ := e
      by_cases h : k = k'
      · subst h
        simp [List.lookup]
      · simp [List.lookup, beq_eq_false_iff_ne.mpr h, ih, h]

/-- A successful lookup is a member. -/
theorem lookup_mem_of_eq_some {m : List (String × String)} {k w : String}
    (h : List.lookup k m = some w) : (k, w) ∈ m := by
  induction m with
  | nil => simp [List.lookup] at h
  | cons e rest ih =>
      obtain ⟨k', v'⟩ := e
      by_cases hk : k = k'
      · subst hk
        rw [List.lookup_cons_self] at h
        simp only [Option.some.injEq] at h
        cases h
        exact List.mem_cons_self _ _
      · rw [show List.lookup k ((k', v') :: rest) = List.lookup k rest by
            simp [List.lookup, beq_eq_false_iff_ne.mpr hk]] at h
        exact List.mem_cons_of_mem _ (ih h)

/-- With distinct keys, membership determines the lookup. -/
theorem lookup_eq_of_mem_nodup {m : List (String × String)} {k w : String}
    (hnd : (m.map Prod.fst).Nodup) (h : (k, w) ∈ m) : List.lookup k m = some w := by
  induction m with
  | nil => cases h
  | cons e rest ih =>
      obtain ⟨k', v'⟩ := e
      rcases List.mem_cons.mp h with h1 | h1
      · obtain ⟨rfl, rfl⟩ := Prod.mk.injEq .. ▸ h1
        exact List.lookup_cons_self
      · have hk : k ≠ k' := by
          rintro rfl
          exact (List.nodup_cons.mp hnd).1 (List.mem_map.mpr ⟨(k, w), h1, rfl⟩)
        rw [show List.lookup k ((k', v') :: rest) = List.lookup k rest by
          simp [List.lookup, beq_eq_false_iff_ne.mpr hk]]
        exact ih (List.nodup_cons.mp hnd).2 h1

/-! ## Mirror machinery: the remote map under distinct paths -/

/-- Inserting a fresh key appends the binding. -/
theorem mapSet_eq_append {m : List (String × String)} {k v : String}
    (h : ∀ x ∈ m, x.1 ≠ k) : mapSet m k v = m ++ [(k, v)] := by
  unfold mapSet
  rw [if_neg]
  simp only [List.any_eq_true, beq_iff_eq, not_exists, not_and]
  exact h

/-- On a listing with distinct paths, the remote map is the filtered listing
mapped to its `(path, sha)` bindings. -/
theorem buildRemoteMap_eq (rf : String) (entries : List RawEntry)
    (hnodup : (entries.map RawEntry.path).Nodup) :
    buildRemoteMap entries rf =
      (entries.filter (remoteFilter rf)).map (fun o => (o.path, o.sha.getD "")) := by
  have haux : ∀ (es : List RawEntry) (acc : List (String × String)),
      (es.map RawEntry.path).Nodup →
      (∀ o ∈ es, ∀ x ∈ acc, x.1 ≠ o.path) →
      es.foldl
        (fun m obj =>
          if remoteFilter rf obj then mapSet m obj.path (obj.sha.getD "") else m) acc =
      acc ++ (es.filter (remoteFilter rf)).map (fun o => (o.path, o.sha.getD "")) := by
    intro es
    induction es with
    | nil => intro acc _ _; simp
    | cons o rest ih =>
        intro acc hnd hfresh
        simp only [List.map_cons, List.nodup_cons] at hnd
        by_cases ho : remoteFilter rf o
        · simp only [List.foldl_cons, if_pos ho]
          rw [mapSet_eq_append (hfresh o (List.mem_cons_self o rest))]
          rw [ih (acc ++ [(o.path, o.sha.getD "")]) hnd.2 ?_]
          · rw [List.filter_cons_of_pos ho]
            simp [List.append_assoc]
          · intro o' ho' x hx
            rcases List.mem_append.mp hx with h | h
            · exact hfresh o' (List.mem_cons_of_mem o ho') x h
            · rw [List.mem_singleton.mp h]
              intro hcontra
              simp only at hcontra
              exact hnd.1 (List.mem_map.mpr ⟨o', ho', hcontra.symm⟩)
        · simp only [List.foldl_cons, if_neg ho]
          rw [ih acc hnd.2 (fun o' ho' => hfresh o' (List.mem_cons_of_mem o ho'))]
          rw [List.filter_cons_of_neg ho]
  unfold buildRemoteMap
  rw [haux entries [] hnodup (by simp)]
  rfl

/-- The keys of the remote map of a distinct-path listing are distinct. -/
theorem buildRemoteMap_keys_nodup (rf : String) (entries : List RawEntry)
    (hnodup : (entries.map RawEntry.path).Nodup) :
    ((buildRemoteMap entries rf).map Prod.fst).Nodup := by
  rw [buildRemoteMap_eq rf entries hnodup]
  rw [List.map_map]
  have h : (Prod.fst ∘ fun o : RawEntry => (o.path, o.sha.getD "")) = RawEntry.path := rfl
  rw [h]
  exact hnodup.sublist ((List.filter_sublist _).map RawEntry.path)

/-- Membership in the remote map of a distinct-path listing. -/
theorem mem_buildRemoteMap_iff (rf : String) (entries : List RawEntry)
    (hnodup : (entries.map RawEntry.path).Nodup) (x : String × String) :
    x ∈ buildRemoteMap entries rf ↔
      ∃ o ∈ entries, remoteFilter rf o ∧ o.path = x.1 ∧ o.sha.getD "" = x.2 := by
  rw [buildRemoteMap_eq rf entries hnodup, List.mem_map]
  constructor
  · rintro ⟨o, ho, heq⟩
    rcases List.mem_filter.mp ho with ⟨ho', hf⟩
    exact ⟨o, ho', hf, by rw [← heq], by rw [← heq]⟩
  · rintro ⟨o, ho, hf, h1, h2⟩
    refine ⟨o, List.mem_filter.mpr ⟨ho, hf⟩, ?_⟩
    rw [h1, h2]

/-! ## Mirror machinery: listing entries at a path -/

/-- The listing entries whose path is `p`. -/
def entriesAt (p : String) (l : List RawEntry) : List RawEntry :=
  l.filter (fun o => o.path == p)

theorem mem_entriesAt {p : String} {l : List RawEntry} {o : RawEntry} :
    o ∈ entriesAt p l ↔ o ∈ l ∧ o.path = p := by
  simp [entriesAt, List.mem_filter]

theorem entriesAt_append (p : String) (l₁ l₂ : List RawEntry) :
    entriesAt p (l₁ ++ l₂) = entriesAt p l₁ ++ entriesAt p l₂ := by
  simp [entriesAt, List.filter_append]

/-- Removing the entries at another path does not change the entries at
`p`. -/
theorem entriesAt_filter_ne (p q : String) (l : List RawEntry) (hpq : q ≠ p) :
    entriesAt p (l.filter (fun o => o.path != q)) = entriesAt p l := by
  unfold entriesAt
  rw [List.filter_filter]
  apply List.filter_congr
  intro o _
  by_cases h : o.path = p
  · simp [h, bne_iff_ne, Ne.symm hpq]
  · simp [h]

/-- Removing the entries at `p` itself leaves nothing at `p`. -/
theorem entriesAt_filter_self (p : String) (l : List RawEntry) :
    entriesAt p (l.filter (fun o => o.path != p)) = [] := by
  unfold entriesAt
  rw [List.filter_filter]
  rw [List.filter_eq_nil_iff]
  intro o _
  by_cases h : o.path = p <;> simp [h]

/-- A mutation at another path does not change the entries at `p`. -/
theorem entriesAt_applyTreeItem_other {p : String} {it : TreeItem}
    (l : List RawEntry) (hne : it.path ≠ p) :
    entriesAt p (applyTreeItem l it) = entriesAt p l := by
  unfold applyTreeItem
  rcases hc : it.content with _ | c
  · exact entriesAt_filter_ne p it.path l hne
  · rw [entriesAt_append, entriesAt_filter_ne p it.path l hne]
    have h0 : entriesAt p [⟨it.path, "blob", some (gitBlobSha1 c)⟩] = [] := by
      simp [entriesAt, beq_eq_false_iff_ne.mpr hne]
    rw [h0, List.append_nil]

/-- After an upsert at `p`, the entries at `p` are exactly the new blob. -/
theorem entriesAt_upsert_self (p c : String) (l : List RawEntry) :
    entriesAt p (applyTreeItem l (mkUpsert p c)) =
      [⟨p, "blob", some (gitBlobSha1 c)⟩] := by
  show entriesAt p
      (l.filter (fun o => o.path != p) ++ [⟨p, "blob", some (gitBlobSha1 c)⟩]) = _
  rw [entriesAt_append, entriesAt_filter_self]
  simp [entriesAt]

/-- After a deletion at `p`, there are no entries at `p`. -/
theorem entriesAt_delete_self (p : String) (l : List RawEntry) :
    entriesAt p (applyTreeItem l (mkDelete p)) = [] := by
  show entriesAt p (l.filter (fun o => o.path != p)) = []
  exact entriesAt_filter_self p l

theorem applyTree_append (l : List RawEntry) (a b : List TreeItem) :
    applyTree l (a ++ b) = applyTree (applyTree l a) b :=
  List.foldl_append _ _ _ _

/-- Mutations that never touch `p` leave the entries at `p` unchanged. -/
theorem entriesAt_applyTree_untouched {p : String} :
    ∀ (items : List TreeItem) (l : List RawEntry),
      (∀ it ∈ items, it.path ≠ p) →
      entriesAt p (applyTree l items) = entriesAt p l := by
  intro items
  induction items with
  | nil => intro l _; rfl
  | cons it rest ih =>
      intro l h
      show entriesAt p (applyTree (applyTreeItem l it) rest) = _
      rw [ih _ (fun it' h' => h it' (List.mem_cons_of_mem _ h'))]
      exact entriesAt_applyTreeItem_other l (h it (List.mem_cons_self _ _))

/-- If every mutation at `p` is the upsert of `c` and there is at least one,
the entries at `p` after applying the whole list are exactly the new blob. -/
theorem entriesAt_applyTree_upserts (p c : String) :
    ∀ (items : List TreeItem) (l : List RawEntry),
      (∀ it ∈ items, it.path = p → it = mkUpsert p c) →
      (∃ it ∈ items, it.path = p) →
      entriesAt p (applyTree l items) = [⟨p, "blob", some (gitBlobSha1 c)⟩] := by
  intro items
  induction items with
  | nil =>
      intro l _ hex
      rcases hex with ⟨it, h, _⟩
      cases h
  | cons it rest ih =>
      intro l hall hex
      show entriesAt p (applyTree (applyTreeItem l it) rest) = _
      by_cases hp : it.path = p
      · have hit := hall it (List.mem_cons_self _ _) hp
        by_cases hrest : ∃ it' ∈ rest, it'.path = p
        · exact ih _ (fun it' h' hp' => hall it' (List.mem_cons_of_mem _ h') hp') hrest
        · push_neg at hrest
          rw [entriesAt_applyTree_untouched rest _ hrest, hit, entriesAt_upsert_self]
      · rcases hex with ⟨it', hit', hp'⟩
        have hmem : it' ∈ rest := by
          rcases List.mem_cons.mp hit' with h | h
          · exact absurd (h ▸ hp') hp
          · exact h
        exact ih _ (fun it'' h'' hp'' => hall it'' (List.mem_cons_of_mem _ h'') hp'')
          ⟨it', hmem, hp'⟩

/-- If every mutation at `p` is the deletion of `p` and there is at least
one, nothing remains at `p` after applying the whole list. -/
theorem entriesAt_applyTree_deletes (p : String) :
    ∀ (items : List TreeItem) (l : List RawEntry),
      (∀ it ∈ items, it.path = p → it = mkDelete p) →
      (∃ it ∈ items, it.path = p) →
      entriesAt p (applyTree l items) = [] := by
  intro items
  induction items with
  | nil =>
      intro l _ hex
      rcases hex with ⟨it, h, _⟩
      cases h
  | cons it rest ih =>
      intro l hall hex
      show entriesAt p (applyTree (applyTreeItem l it) rest) = _
      by_cases hp : it.path = p
      · have hit := hall it (List.mem_cons_self _ _) hp
        by_cases hrest : ∃ it' ∈ rest, it'.path = p
        · exact ih _ (fun it' h' hp' => hall it' (List.mem_cons_of_mem _ h') hp') hrest
        · push_neg at hrest
          rw [entriesAt_applyTree_untouched rest _ hrest, hit, entriesAt_delete_self]
      · rcases hex with ⟨it', hit', hp'⟩
        have hmem : it' ∈ rest := by
          rcases List.mem_cons.mp hit' with h | h
          · exact absurd (h ▸ hp') hp
          · exact h
        exact ih _ (fun it'' h'' hp'' => hall it'' (List.mem_cons_of_mem _ h'') hp'')
          ⟨it', hmem, hp'⟩

/-- One mutation preserves distinctness of listing paths. -/
theorem applyTreeItem_paths_nodup {l : List RawEntry} {it : TreeItem}
    (h : (l.map RawEntry.path).Nodup) :
    ((applyTreeItem l it).map RawEntry.path).Nodup := by
  unfold applyTreeItem
  rcases hc : it.content with _ | c
  · exact h.sublist ((List.filter_sublist _).map _)
  · rw [List.map_append, List.nodup_append]
    refine ⟨h.sublist ((List.filter_sublist _).map _), by simp, ?_⟩
    intro a ha hb
    simp only [List.map_cons, List.map_nil, List.mem_singleton] at hb
    subst hb
    rcases List.mem_map.mp ha with ⟨o, ho, hpath⟩
    rcases List.mem_filter.mp ho with ⟨_, hfil⟩
    exact bne_iff_ne.mp hfil hpath

/-- Applying a mutation list preserves distinctness of listing paths. -/
theorem applyTree_paths_nodup :
    ∀ (items : List TreeItem) (l : List RawEntry),
      (l.map RawEntry.path).Nodup →
      ((applyTree l items).map RawEntry.path).Nodup := by
  intro items
  induction items with
  | nil => exact fun l h => h
  | cons it rest ih => exact fun l h => ih _ (applyTreeItem_paths_nodup h)

/-! ## Mirror machinery: shapes of the mutation lists and gathered paths -/

/-- Elimination for the upsert part: the generating local entry. -/
theorem mem_upsertItems_elim {locals : List LocalFile}
    {r : List (String × String)} {it : TreeItem} (h : it ∈ upsertItems locals r) :
    ∃ g ∈ locals, it = mkUpsert g.repoPath g.content ∧
      List.lookup g.repoPath r ≠ some (gitBlobSha1 g.content) := by
  unfold upsertItems at h
  rcases List.mem_filterMap.mp h with ⟨g, hg, hsome⟩
  by_cases hcond : List.lookup g.repoPath r = some (gitBlobSha1 g.content)
  · rw [if_pos hcond] at hsome
    exact absurd hsome (by simp)
  · rw [if_neg hcond] at hsome
    exact ⟨g, hg, (Option.some.inj hsome).symm, hcond⟩

/-- Elimination for the deletion part: the generating remote binding. -/
theorem mem_deleteItems_elim {r : List (String × String)} {paths : List String}
    {it : TreeItem} (h : it ∈ deleteItems r paths) :
    ∃ e ∈ r, it = mkDelete e.1 ∧ ¬ e.1 ∈ paths := by
  unfold deleteItems at h
  rcases List.mem_filterMap.mp h with ⟨e, he, hsome⟩
  by_cases hc : e.1 ∈ paths
  · rw [if_pos hc] at hsome
    exact absurd hsome (by simp)
  · rw [if_neg hc] at hsome
    exact ⟨e, he, (Option.some.inj hsome).symm, hc⟩

/-- Every gathered entry's repo path is its vault path rooted under the
folder. -/
theorem gather_repoPath (v : Vault) (rf : String) :
    ∀ (sel : List String), ∀ e ∈ gatherLocalFiles v rf sel,
      e.repoPath = mkRepoPath rf e.vaultPath := by
  intro sel
  induction sel with
  | nil => intro e he; cases he
  | cons p rest ih =>
      intro e he
      cases hl : List.lookup p v with
      | none =>
          simp only [gatherLocalFiles, hl, List.nil_append] at he
          exact ih e he
      | some af =>
          cases af with
          | file fp c =>
              simp only [gatherLocalFiles, hl, List.singleton_append] at he
              rcases List.mem_cons.mp he with h | h
              · rw [h]
              · exact ih e h
          | folder fp ch =>
              simp only [gatherLocalFiles, hl] at he
              rcases List.mem_append.mp he with h | h
              · rcases List.mem_map.mp h with ⟨fc, _, heq⟩
                rw [← heq]
              · exact ih e h

/-- A list is always an initial segment of itself extended. -/
theorem hasPre_append (xs ys : List Char) : hasPre xs (xs ++ ys) = true := by
  induction xs with
  | nil => rfl
  | cons a as ih => simp [hasPre, ih]

/-- With a non-empty folder, every rooted path passes the remote filter. -/
theorem remoteFilter_mkRepoPath (rf vp : String) (sh : Option String)
    (hrf : rf ≠ "") : remoteFilter rf ⟨mkRepoPath rf vp, "blob", sh⟩ = true := by
  unfold remoteFilter mkRepoPath
  rw [if_neg hrf]
  simp only [Bool.and_eq_true, Bool.or_eq_true]
  refine ⟨⟨rfl, ?_⟩, .inr ?_⟩
  · rw [bne_iff_ne]
    intro hcontra
    have hd : (rf ++ "/" ++ vp).data = [] := by rw [hcontra]
    rw [String.data_append, String.data_append] at hd
    simp at hd
  · show hasPre (rf ++ "/").data ((rf ++ "/") ++ vp).data = true
    rw [String.data_append (rf ++ "/") vp]
    exact hasPre_append _ _

/-! ## The mirror core -/

set_option maxHeartbeats 1600000 in
/-- Core reconciliation correctness with a non-empty normalized folder:
applying the computed mutation list to a distinct-path listing produces a
listing whose filtered remote map binds every gathered repo path to the hash
of its local content (first conjunct), and whose keys are exactly the
gathered repo paths (second conjunct).  `hshape` records that every local
entry's repo path is rooted under the folder (true of all gathered entries),
and `hwf` that entries sharing a repo path share their content (true of any
consistent vault snapshot). -/
theorem mirror_core (locals : List LocalFile) (L : List RawEntry) (rf : String)
    (hrf : rf ≠ "") (hnodupL : (L.map RawEntry.path).Nodup)
    (hshape : ∀ e ∈ locals, e.repoPath = mkRepoPath rf e.vaultPath)
    (hwf : ∀ e ∈ locals, ∀ g ∈ locals, e.repoPath = g.repoPath → e.content = g.content) :
    (∀ f ∈ locals,
      List.lookup f.repoPath
        (buildRemoteMap (applyTree L (computeMutations locals (buildRemoteMap L rf))) rf) =
        some (gitBlobSha1 f.content)) ∧
    (∀ p : String,
      p ∈ (buildRemoteMap
          (applyTree L (computeMutations locals (buildRemoteMap L rf))) rf).map Prod.fst ↔
        p ∈ locals.map LocalFile.repoPath) := by
  set R := buildRemoteMap L rf with hR
  set muts := computeMutations locals R with hmuts
  set post := applyTree L muts with hpostdef
  have hpost_nodup : (post.map RawEntry.path).Nodup :=
    applyTree_paths_nodup muts L hnodupL
  have hDnot_local : ∀ f ∈ locals,
      ∀ it ∈ deleteItems R (locals.map LocalFile.repoPath), it.path ≠ f.repoPath := by
    intro f hf it hit
    rcases mem_deleteItems_elim hit with ⟨e, he, hdel, hnp⟩
    rw [hdel]
    simp only [mkDelete]
    intro hcontra
    exact hnp (hcontra ▸ List.mem_map.mpr ⟨f, hf, rfl⟩)
  have hmem2 : ∀ f ∈ locals, (f.repoPath, gitBlobSha1 f.content) ∈ buildRemoteMap post rf := by
    intro f hf
    rw [mem_buildRemoteMap_iff rf post hpost_nodup]
    by_cases hch : List.lookup f.repoPath R = some (gitBlobSha1 f.content)
    · have hUnot : ∀ it ∈ upsertItems locals R, it.path ≠ f.repoPath := by
        intro it hit
        rcases mem_upsertItems_elim hit with ⟨g, hg, hup, hcond⟩
        rw [hup]
        simp only [mkUpsert]
        intro hcontra
        have hcg : g.content = f.content := hwf g hg f hf hcontra
        exact hcond (by rw [hcontra, hcg]; exact hch)
      have hmuts_not : ∀ it ∈ muts, it.path ≠ f.repoPath := by
        intro it hit
        rcases List.mem_append.mp (hmuts ▸ hit) with h | h
        · exact hUnot it h
        · exact hDnot_local f hf it h
      have huntouched := entriesAt_applyTree_untouched muts L hmuts_not
      have hmemR := lookup_mem_of_eq_some hch
      rw [hR, mem_buildRemoteMap_iff rf L hnodupL] at hmemR
      rcases hmemR with ⟨o, hoL, hof, hop, hos⟩
      refine ⟨o, ?_, hof, hop, hos⟩
      have hin : o ∈ entriesAt f.repoPath post := by
        rw [hpostdef, huntouched]
        exact mem_entriesAt.mpr ⟨hoL, hop⟩
      exact (mem_entriesAt.mp hin).1
    · have hallU : ∀ it ∈ muts, it.path = f.repoPath →
          it = mkUpsert f.repoPath f.content := by
        intro it hit hp
        rcases List.mem_append.mp (hmuts ▸ hit) with h | h
        · rcases mem_upsertItems_elim h with ⟨g, hg, hup, _⟩
          rw [hup] at hp ⊢
          simp only [mkUpsert] at hp
          have hgc : g.content = f.content := hwf g hg f hf hp
          rw [hp, hgc]
        · exact absurd hp (hDnot_local f hf it h)
      have hexU : ∃ it ∈ muts, it.path = f.repoPath := by
        refine ⟨mkUpsert f.repoPath f.content, ?_, rfl⟩
        rw [hmuts]
        exact List.mem_append.mpr (.inl (mem_upsertItems.mpr ⟨⟨f, hf, rfl, rfl⟩, hch⟩))
      have heq := entriesAt_applyTree_upserts f.repoPath f.content muts L hallU hexU
      refine ⟨⟨f.repoPath, "blob", some (gitBlobSha1 f.content)⟩, ?_, ?_, rfl, rfl⟩
      · have hin : (⟨f.repoPath, "blob", some (gitBlobSha1 f.content)⟩ : RawEntry) ∈
            entriesAt f.repoPath post := by
          rw [hpostdef, heq]
          exact List.mem_singleton.mpr rfl
        exact (mem_entriesAt.mp hin).1
      · have hsh := hshape f hf
        show remoteFilter rf ⟨f.repoPath, "blob", some (gitBlobSha1 f.content)⟩ = true
        rw [hsh]
        exact remoteFilter_mkRepoPath rf f.vaultPath _ hrf
  have hkeysB : ((buildRemoteMap post rf).map Prod.fst).Nodup :=
    buildRemoteMap_keys_nodup rf post hpost_nodup
  refine ⟨fun f hf => lookup_eq_of_mem_nodup hkeysB (hmem2 f hf), fun p => ?_⟩
  constructor
  · intro hp
    by_contra hnp
    rcases List.mem_map.mp hp with ⟨x, hxB, hx1⟩
    rw [mem_buildRemoteMap_iff rf post hpost_nodup] at hxB
    rcases hxB with ⟨o, hpostmem, hof, hop, _⟩
    have hopp : o.path = p := by rw [hop, hx1]
    have hUnot : ∀ it ∈ upsertItems locals R, it.path ≠ p := by
      intro it hit
      rcases mem_upsertItems_elim hit with ⟨g, hg, hup, _⟩
      rw [hup]
      simp only [mkUpsert]
      intro hc
      exact hnp (hc ▸ List.mem_map.mpr ⟨g, hg, rfl⟩)
    by_cases hpR : p ∈ R.map Prod.fst
    · have hallD : ∀ it ∈ deleteItems R (locals.map LocalFile.repoPath),
          it.path = p → it = mkDelete p := by
        intro it hit hp'
        rcases mem_deleteItems_elim hit with ⟨e, he, hdel, _⟩
        rw [hdel] at hp' ⊢
        simp only [mkDelete] at hp'
        rw [hp']
      have hexD : ∃ it ∈ deleteItems R (locals.map LocalFile.repoPath), it.path = p :=
        ⟨mkDelete p, mem_deleteItems.mpr ⟨hpR, hnp⟩, rfl⟩
      have hsplit : post = applyTree (applyTree L (upsertItems locals R))
          (deleteItems R (locals.map LocalFile.repoPath)) := by
        rw [hpostdef, hmuts]
        exact applyTree_append L _ _
      have hdel := entriesAt_applyTree_deletes p
        (deleteItems R (locals.map LocalFile.repoPath))
        (applyTree L (upsertItems locals R)) hallD hexD
      have hin : o ∈ entriesAt p (applyTree (applyTree L (upsertItems locals R))
          (deleteItems R (locals.map LocalFile.repoPath))) :=
        mem_entriesAt.mpr ⟨hsplit ▸ hpostmem, hopp⟩
      rw [hdel] at hin
      cases hin
    · have hDnot : ∀ it ∈ deleteItems R (locals.map LocalFile.repoPath), it.path ≠ p := by
        intro it hit
        rcases mem_deleteItems_elim hit with ⟨e, he, hdel, _⟩
        rw [hdel]
        simp only [mkDelete]
        intro hc
        exact hpR (hc ▸ List.mem_map.mpr ⟨e, he, rfl⟩)
      have hmuts_not : ∀ it ∈ muts, it.path ≠ p := by
        intro it hit
        rcases List.mem_append.mp (hmuts ▸ hit) with h | h
        · exact hUnot it h
        · exact hDnot it h
      have huntouched := entriesAt_applyTree_untouched muts L hmuts_not
      have hoL : o ∈ L := by
        have hin : o ∈ entriesAt p post := mem_entriesAt.mpr ⟨hpostmem, hopp⟩
        rw [hpostdef, huntouched] at hin
        exact (mem_entriesAt.mp hin).1
      refine hpR (List.mem_map.mpr ⟨(o.path, o.sha.getD ""), ?_, hopp⟩)
      rw [hR, mem_buildRemoteMap_iff rf L hnodupL]
      exact ⟨o, hoL, hof, rfl, rfl⟩
  · intro hp
    rcases List.mem_map.mp hp with ⟨f, hf, hfp⟩
    exact List.mem_map.mpr ⟨(f.repoPath, gitBlobSha1 f.content), hmem2 f hf, hfp⟩

/-! ## C1: the mirror invariant -/

/-- Settings fixture with an empty target folder. -/
def rootSettings : GitHubPublisherSettings :=
  ⟨"tok", "https://github.com/u/r", "", "main", ["a.md"], 60, none⟩

/-- A remote listing holding one stale blob. -/
def rootRemote : List RawEntry := [⟨"old.md", "blob", some "h"⟩]

/-- C1 fails on the code as stated (quantifying over every prior remote
tree and selection): with an empty target folder the publish completes
successfully, yet the stale remote blob `old.md` survives in the resulting
tree even though it corresponds to no local entry — the remote region is
not a mirror of the selection.  (Root cause: the empty-folder remote-map
filter selects nothing, so no deletion is ever emitted.) -/
theorem mirror_invariant_counterexample :
    (publishToGitHub rootSettings pubVault (okApi rootRemote)).lastSyncUpdated = true ∧
    "old.md" ∈ ((applyTree rootRemote (computeMutations
        (gatherLocalFiles pubVault (stripSlashes rootSettings.repoFolder)
          rootSettings.selectedPaths)
        (buildRemoteMap rootRemote (stripSlashes rootSettings.repoFolder)))).filter
        (fun o => o.type == "blob")).map RawEntry.path ∧
    ¬ "old.md" ∈ (gatherLocalFiles pubVault (stripSlashes rootSettings.repoFolder)
        rootSettings.selectedPaths).map LocalFile.repoPath :=
  ⟨by decide, by decide, by decide⟩

/-- C1 amended: provided the normalized target folder is non-empty (and the
remote listing has distinct paths, and gathered entries sharing a repo path
share content), after a successful `publishToGitHub` the blob paths under
the folder in the resulting tree are exactly the gathered repo paths, and
each binds the git blob hash of the corresponding local content. -/
theorem mirror_invariant (s : GitHubPublisherSettings) (v : Vault) (api : Api)
    (owner repo c₁ t₁ : String) (L : List RawEntry)
    (hrf : stripSlashes s.repoFolder ≠ "")
    (hnodupL : (L.map RawEntry.path).Nodup)
    (hwf : ∀ e ∈ gatherLocalFiles v (stripSlashes s.repoFolder) s.selectedPaths,
      ∀ g ∈ gatherLocalFiles v (stripSlashes s.repoFolder) s.selectedPaths,
        e.repoPath = g.repoPath → e.content = g.content)
    (_hparse : parseRepoUrl s.repoUrl = some (owner, repo))
    (_h1 : api.getRef owner repo ("heads/" ++ s.repoBranch) = .ok c₁)
    (_h2 : api.getCommit owner repo c₁ = .ok t₁)
    (_h3 : api.getTree owner repo t₁ true = .ok L)
    (_hsuccess : (publishToGitHub s v api).lastSyncUpdated = true) :
    (∀ p : String,
      p ∈ (buildRemoteMap (applyTree L (computeMutations
          (gatherLocalFiles v (stripSlashes s.repoFolder) s.selectedPaths)
          (buildRemoteMap L (stripSlashes s.repoFolder))))
          (stripSlashes s.repoFolder)).map Prod.fst ↔
        p ∈ (gatherLocalFiles v (stripSlashes s.repoFolder) s.selectedPaths).map
          LocalFile.repoPath) ∧
    (∀ f ∈ gatherLocalFiles v (stripSlashes s.repoFolder) s.selectedPaths,
      List.lookup f.repoPath
        (buildRemoteMap (applyTree L (computeMutations
          (gatherLocalFiles v (stripSlashes s.repoFolder) s.selectedPaths)
          (buildRemoteMap L (stripSlashes s.repoFolder))))
          (stripSlashes s.repoFolder)) = some (gitBlobSha1 f.content)) := by
  have hshape := gather_repoPath v (stripSlashes s.repoFolder) s.selectedPaths
  have h := mirror_core (gatherLocalFiles v (stripSlashes s.repoFolder) s.selectedPaths)
    L (stripSlashes s.repoFolder) hrf hnodupL hshape hwf
  exact ⟨h.2, h.1⟩

/-- The remote listing used in the mirror-invariant witness. -/
def mirrorL : List RawEntry := [⟨"docs/old.md", "blob", some "h"⟩]

theorem mirror_invariant_witness :
    stripSlashes pubSettings.repoFolder ≠ "" ∧
    (publishToGitHub pubSettings pubVault (okApi mirrorL)).lastSyncUpdated = true ∧
    List.lookup "docs/a.md"
      (buildRemoteMap (applyTree mirrorL (computeMutations
        (gatherLocalFiles pubVault (stripSlashes pubSettings.repoFolder)
          pubSettings.selectedPaths)
        (buildRemoteMap mirrorL (stripSlashes pubSettings.repoFolder))))
        (stripSlashes pubSettings.repoFolder)) = some (gitBlobSha1 "x") :=
  ⟨by decide, by decide,
    (mirror_invariant pubSettings pubVault (okApi mirrorL) "u" "r" "c0" "t0" mirrorL
        (by decide) (by decide) (by decide) (by decide) rfl rfl rfl (by decide)).2
      ⟨"a.md", "docs/a.md", "x"⟩ (by decide)⟩

/-! ## C5: empty diff means no writes -/

/-- When the computed mutation list is empty, the body performs exactly the
three read calls and exits through the short circuit that records the sync
date. -/
theorem publishBody_reads_only (s : GitHubPublisherSettings) (v : Vault) (api : Api)
    (owner repo c₁ t₁ : String) (L : List RawEntry)
    (ht1 : s.githubToken ≠ "") (ht2 : s.repoUrl ≠ "") (ht3 : s.repoBranch ≠ "")
    (hparse : parseRepoUrl s.repoUrl = some (owner, repo))
    (h1 : api.getRef owner repo ("heads/" ++ s.repoBranch) = .ok c₁)
    (h2 : api.getCommit owner repo c₁ = .ok t₁)
    (h3 : api.getTree owner repo t₁ true = .ok L)
    (hempty : computeMutations
      (gatherLocalFiles v (stripSlashes s.repoFolder) s.selectedPaths)
      (buildRemoteMap L (stripSlashes s.repoFolder)) = []) :
    publishBody s v api =
      ([.getRef ("heads/" ++ s.repoBranch), .getCommit c₁, .getTree t₁ true],
        .published) := by
  simp only [publishBody, ht1, ht2, ht3, hparse, h1, h2, h3, hempty, List.length_nil,
    or_self, false_or, or_false, if_true, if_false, ite_true, ite_false]

/-- C5: if the computed mutation list is empty, `publishToGitHub` issues
exactly the three read calls (so zero writes), updates the sync date, and
reports success; consequently a second publish right after a successful one
— reading the tree produced by the first — issues zero write calls and
still advances the timestamp, provided the normalized target folder is
non-empty. -/
theorem empty_diff_no_writes :
    (∀ (s : GitHubPublisherSettings) (v : Vault) (api : Api)
        (owner repo c₁ t₁ : String) (L : List RawEntry),
      s.githubToken ≠ "" → s.repoUrl ≠ "" → s.repoBranch ≠ "" →
      parseRepoUrl s.repoUrl = some (owner, repo) →
      api.getRef owner repo ("heads/" ++ s.repoBranch) = .ok c₁ →
      api.getCommit owner repo c₁ = .ok t₁ →
      api.getTree owner repo t₁ true = .ok L →
      computeMutations (gatherLocalFiles v (stripSlashes s.repoFolder) s.selectedPaths)
        (buildRemoteMap L (stripSlashes s.repoFolder)) = [] →
      (publishToGitHub s v api).calls =
          [.getRef ("heads/" ++ s.repoBranch), .getCommit c₁, .getTree t₁ true] ∧
        (publishToGitHub s v api).calls.filter ApiCall.isWrite = [] ∧
        (publishToGitHub s v api).lastSyncUpdated = true ∧
        (publishToGitHub s v api).notice = none) ∧
    (∀ (s : GitHubPublisherSettings) (v : Vault) (api₁ api₂ : Api)
        (owner repo c₁ t₁ c₂ t₂ : String) (L : List RawEntry),
      s.githubToken ≠ "" → s.repoUrl ≠ "" → s.repoBranch ≠ "" →
      parseRepoUrl s.repoUrl = some (owner, repo) →
      stripSlashes s.repoFolder ≠ "" →
      (L.map RawEntry.path).Nodup →
      (∀ e ∈ gatherLocalFiles v (stripSlashes s.repoFolder) s.selectedPaths,
        ∀ g ∈ gatherLocalFiles v (stripSlashes s.repoFolder) s.selectedPaths,
          e.repoPath = g.repoPath → e.content = g.content) →
      api₁.getRef owner repo ("heads/" ++ s.repoBranch) = .ok c₁ →
      api₁.getCommit owner repo c₁ = .ok t₁ →
      api₁.getTree owner repo t₁ true = .ok L →
      (publishToGitHub s v api₁).lastSyncUpdated = true →
      api₂.getRef owner repo ("heads/" ++ s.repoBranch) = .ok c₂ →
      api₂.getCommit owner repo c₂ = .ok t₂ →
      api₂.getTree owner repo t₂ true =
        .ok (applyTree L (computeMutations
          (gatherLocalFiles v (stripSlashes s.repoFolder) s.selectedPaths)
          (buildRemoteMap L (stripSlashes s.repoFolder)))) →
      (publishToGitHub s v api₂).calls.filter ApiCall.isWrite = [] ∧
        (publishToGitHub s v api₂).lastSyncUpdated = true ∧
        (publishToGitHub s v api₂).notice = none) := by
  constructor
  · intro s v api owner repo c₁ t₁ L ht1 ht2 ht3 hparse h1 h2 h3 hempty
    have hbody := publishBody_reads_only s v api owner repo c₁ t₁ L
      ht1 ht2 ht3 hparse h1 h2 h3 hempty
    simp [publishToGitHub, hbody, ApiCall.isWrite]
  · intro s v api₁ api₂ owner repo c₁ t₁ c₂ t₂ L ht1 ht2 ht3 hparse hrf hnodup hwf
      h11 h12 h13 hfirst h21 h22 h23
    have hshape := gather_repoPath v (stripSlashes s.repoFolder) s.selectedPaths
    have hm := mirror_core
      (gatherLocalFiles v (stripSlashes s.repoFolder) s.selectedPaths) L
      (stripSlashes s.repoFolder) hrf hnodup hshape hwf
    have hempty2 : computeMutations
        (gatherLocalFiles v (stripSlashes s.repoFolder) s.selectedPaths)
        (buildRemoteMap (applyTree L (computeMutations
          (gatherLocalFiles v (stripSlashes s.repoFolder) s.selectedPaths)
          (buildRemoteMap L (stripSlashes s.repoFolder))))
          (stripSlashes s.repoFolder)) = [] := by
      have hu : upsertItems
          (gatherLocalFiles v (stripSlashes s.repoFolder) s.selectedPaths)
          (buildRemoteMap (applyTree L (computeMutations
            (gatherLocalFiles v (stripSlashes s.repoFolder) s.selectedPaths)
            (buildRemoteMap L (stripSlashes s.repoFolder))))
            (stripSlashes s.repoFolder)) = [] := by
        unfold upsertItems
        rw [List.filterMap_eq_nil_iff]
        intro f hf
        rw [if_pos (hm.1 f hf)]
      have hd : deleteItems
          (buildRemoteMap (applyTree L (computeMutations
            (gatherLocalFiles v (stripSlashes s.repoFolder) s.selectedPaths)
            (buildRemoteMap L (stripSlashes s.repoFolder))))
            (stripSlashes s.repoFolder))
          ((gatherLocalFiles v (stripSlashes s.repoFolder) s.selectedPaths).map
            LocalFile.repoPath) = [] := by
        unfold deleteItems
        rw [List.filterMap_eq_nil_iff]
        intro e he
        rw [if_pos ((hm.2 e.1).mp (List.mem_map.mpr ⟨e, he, rfl⟩))]
      show upsertItems _ _ ++ deleteItems _ _ = []
      rw [hu, hd]
      rfl
    have hbody := publishBody_reads_only s v api₂ owner repo c₂ t₂ _
      ht1 ht2 ht3 hparse h21 h22 h23 hempty2
    simp [publishToGitHub, hbody, ApiCall.isWrite]

/-- C5 fails on the code as stated in its second-publish consequence: with
an empty target folder, a first successful publish is followed — with local
and remote state unchanged — by a second publish that issues write calls
again, because the empty-folder remote map is always empty and every file is
re-upserted. -/
theorem idempotence_counterexample :
    (publishToGitHub rootSettings pubVault (okApi [])).lastSyncUpdated = true ∧
    (publishToGitHub rootSettings pubVault
        (okApi (applyTree [] (computeMutations
          (gatherLocalFiles pubVault (stripSlashes rootSettings.repoFolder)
            rootSettings.selectedPaths)
          (buildRemoteMap [] (stripSlashes rootSettings.repoFolder)))))).calls.filter
        ApiCall.isWrite ≠ [] :=
  ⟨by decide, by decide⟩

/-- A remote listing that already mirrors the local selection. -/
def matchedRemote : List RawEntry :=
  [⟨"docs/a.md", "blob", some (gitBlobSha1 "x")⟩]

theorem empty_diff_no_writes_witness :
    computeMutations
        (gatherLocalFiles pubVault (stripSlashes pubSettings.repoFolder)
          pubSettings.selectedPaths)
        (buildRemoteMap matchedRemote (stripSlashes pubSettings.repoFolder)) = [] ∧
    ((publishToGitHub pubSettings pubVault (okApi matchedRemote)).calls =
        [.getRef ("heads/" ++ pubSettings.repoBranch), .getCommit "c0",
          .getTree "t0" true] ∧
      (publishToGitHub pubSettings pubVault (okApi matchedRemote)).calls.filter
          ApiCall.isWrite = [] ∧
      (publishToGitHub pubSettings pubVault (okApi matchedRemote)).lastSyncUpdated = true ∧
      (publishToGitHub pubSettings pubVault (okApi matchedRemote)).notice = none) ∧
    ((publishToGitHub pubSettings pubVault
          (okApi (applyTree [] (computeMutations
            (gatherLocalFiles pubVault (stripSlashes pubSettings.repoFolder)
              pubSettings.selectedPaths)
            (buildRemoteMap [] (stripSlashes pubSettings.repoFolder)))))).calls.filter
          ApiCall.isWrite = [] ∧
      (publishToGitHub pubSettings pubVault
          (okApi (applyTree [] (computeMutations
            (gatherLocalFiles pubVault (stripSlashes pubSettings.repoFolder)
              pubSettings.selectedPaths)
            (buildRemoteMap [] (stripSlashes pubSettings.repoFolder)))))).lastSyncUpdated =
        true ∧
      (publishToGitHub pubSettings pubVault
          (okApi (applyTree [] (computeMutations
            (gatherLocalFiles pubVault (stripSlashes pubSettings.repoFolder)
              pubSettings.selectedPaths)
            (buildRemoteMap [] (stripSlashes pubSettings.repoFolder)))))).notice = none) :=
  ⟨by decide,
    empty_diff_no_writes.1 pubSettings pubVault (okApi matchedRemote) "u" "r" "c0" "t0"
      matchedRemote (by decide) (by decide) (by decide) (by decide) rfl rfl rfl
      (by decide),
    empty_diff_no_writes.2 pubSettings pubVault (okApi []) (okApi (applyTree []
        (computeMutations
          (gatherLocalFiles pubVault (stripSlashes pubSettings.repoFolder)
            pubSettings.selectedPaths)
          (buildRemoteMap [] (stripSlashes pubSettings.repoFolder)))))
      "u" "r" "c0" "t0" "c0" "t0" [] (by decide) (by decide) (by decide) (by decide)
      (by decide) (by decide) (by decide) rfl rfl rfl (by decide) rfl rfl rfl⟩
